import Mathlib

/-!
Verification of the Pade approximant module (`triqs/utility/pade_approximants.hpp`).

The C++ code is embedded shallowly.  `gmp_complex` (a complex number whose
components are GMP extended-precision floats) is modelled as a complex number
with exact rational components, so the configurable-precision arithmetic is
idealised as exact arithmetic.  The fallible GMP `inverse` (which throws
`TRIQS_RUNTIME_ERROR` on a zero squared magnitude) returns an `Option`.  The
coefficient construction (the `pade_approximant` constructor) and the
evaluator (`operator()`) are translated statement by statement.
-/

/-- Embedding of `gmp_complex`: a complex number with exact rational real and
imaginary parts. -/
structure gmp_complex where
  re : ℚ
  im : ℚ
deriving DecidableEq

/-- Componentwise addition, mirroring `operator+` (`{rhs.re + re, rhs.im + im}`). -/
def gmp_complex.add (a b : gmp_complex) : gmp_complex :=
  ⟨b.re + a.re, b.im + a.im⟩

/-- Componentwise negation (used to express subtraction as a group operation). -/
def gmp_complex.neg (a : gmp_complex) : gmp_complex :=
  ⟨-a.re, -a.im⟩

/-- Componentwise subtraction, mirroring `operator-` (`{re - rhs.re, im - rhs.im}`). -/
def gmp_complex.sub (a b : gmp_complex) : gmp_complex :=
  ⟨a.re - b.re, a.im - b.im⟩

/-- Complex multiplication, mirroring `operator*`
(`{rhs.re * re - rhs.im * im, rhs.re * im + rhs.im * re}` with `this = a`, `rhs = b`). -/
def gmp_complex.mul (a b : gmp_complex) : gmp_complex :=
  ⟨b.re * a.re - b.im * a.im, b.re * a.im + b.im * a.re⟩

/-- Squared magnitude, mirroring the `norm()` method
(`real * real + imag * imag`). -/
def gmp_complex.norm (a : gmp_complex) : ℚ :=
  a.re * a.re + a.im * a.im

/-- The value computed by the GMP `inverse` friend function on a nonzero
argument: `{re / d, -im / d}` with `d` the squared magnitude.  Totalised at
zero (where it returns `0`, matching the Lean field convention); the error
branch of the C++ function is modelled separately by `gmp_complex.inverse`. -/
def gmp_complex.inv (a : gmp_complex) : gmp_complex :=
  ⟨a.re / gmp_complex.norm a, -a.im / gmp_complex.norm a⟩

instance : Zero gmp_complex := ⟨⟨0, 0⟩⟩

instance : One gmp_complex := ⟨⟨1, 0⟩⟩

instance : Add gmp_complex := ⟨gmp_complex.add⟩

instance : Neg gmp_complex := ⟨gmp_complex.neg⟩

instance : Sub gmp_complex := ⟨gmp_complex.sub⟩

instance : Mul gmp_complex := ⟨gmp_complex.mul⟩

instance : Inv gmp_complex := ⟨gmp_complex.inv⟩

instance : Field gmp_complex where
  zero := (0 : gmp_complex)
  one := (1 : gmp_complex)
  add := gmp_complex.add
  neg := gmp_complex.neg
  sub := gmp_complex.sub
  mul := gmp_complex.mul
  inv := gmp_complex.inv
  nsmul := nsmulRec
  zsmul := zsmulRec
  nnqsmul := _
  qsmul := _
  add_assoc := by
    intro a b c
    show gmp_complex.add (gmp_complex.add a b) c = gmp_complex.add a (gmp_complex.add b c)
    cases a; cases b; cases c
    simp only [gmp_complex.add, gmp_complex.mk.injEq]
    constructor <;> ring
  zero_add := by
    intro a
    show gmp_complex.add ⟨0, 0⟩ a = a
    cases a
    simp only [gmp_complex.add, gmp_complex.mk.injEq]
    constructor <;> ring
  add_zero := by
    intro a
    show gmp_complex.add a ⟨0, 0⟩ = a
    cases a
    simp only [gmp_complex.add, gmp_complex.mk.injEq]
    constructor <;> ring
  add_comm := by
    intro a b
    show gmp_complex.add a b = gmp_complex.add b a
    cases a; cases b
    simp only [gmp_complex.add, gmp_complex.mk.injEq]
    constructor <;> ring
  mul_assoc := by
    intro a b c
    show gmp_complex.mul (gmp_complex.mul a b) c = gmp_complex.mul a (gmp_complex.mul b c)
    cases a; cases b; cases c
    simp only [gmp_complex.mul, gmp_complex.mk.injEq]
    constructor <;> ring
  one_mul := by
    intro a
    show gmp_complex.mul ⟨1, 0⟩ a = a
    cases a
    simp only [gmp_complex.mul, gmp_complex.mk.injEq]
    constructor <;> ring
  mul_one := by
    intro a
    show gmp_complex.mul a ⟨1, 0⟩ = a
    cases a
    simp only [gmp_complex.mul, gmp_complex.mk.injEq]
    constructor <;> ring
  left_distrib := by
    intro a b c
    show gmp_complex.mul a (gmp_complex.add b c)
        = gmp_complex.add (gmp_complex.mul a b) (gmp_complex.mul a c)
    cases a; cases b; cases c
    simp only [gmp_complex.mul, gmp_complex.add, gmp_complex.mk.injEq]
    constructor <;> ring
  right_distrib := by
    intro a b c
    show gmp_complex.mul (gmp_complex.add a b) c
        = gmp_complex.add (gmp_complex.mul a c) (gmp_complex.mul b c)
    cases a; cases b; cases c
    simp only [gmp_complex.mul, gmp_complex.add, gmp_complex.mk.injEq]
    constructor <;> ring
  zero_mul := by
    intro a
    show gmp_complex.mul ⟨0, 0⟩ a = ⟨0, 0⟩
    cases a
    simp only [gmp_complex.mul, gmp_complex.mk.injEq]
    constructor <;> ring
  mul_zero := by
    intro a
    show gmp_complex.mul a ⟨0, 0⟩ = ⟨0, 0⟩
    cases a
    simp only [gmp_complex.mul, gmp_complex.mk.injEq]
    constructor <;> ring
  mul_comm := by
    intro a b
    show gmp_complex.mul a b = gmp_complex.mul b a
    cases a; cases b
    simp only [gmp_complex.mul, gmp_complex.mk.injEq]
    constructor <;> ring
  neg_add_cancel := by
    intro a
    show gmp_complex.add (gmp_complex.neg a) a = ⟨0, 0⟩
    cases a
    simp only [gmp_complex.add, gmp_complex.neg, gmp_complex.mk.injEq]
    constructor <;> ring
  sub_eq_add_neg := by
    intro a b
    show gmp_complex.sub a b = gmp_complex.add a (gmp_complex.neg b)
    cases a; cases b
    simp only [gmp_complex.sub, gmp_complex.add, gmp_complex.neg, gmp_complex.mk.injEq]
    constructor <;> ring
  exists_pair_ne := by
    refine ⟨⟨0, 0⟩, ⟨1, 0⟩, ?_⟩
    intro h
    exact absurd (congrArg gmp_complex.re h) (by norm_num)
  mul_inv_cancel := by
    intro a ha
    cases a with
    | mk r i =>
      have hd : r * r + i * i ≠ 0 := by
        intro hz
        apply ha
        have hr : r = 0 := by nlinarith [mul_self_nonneg r, mul_self_nonneg i]
        have hi : i = 0 := by nlinarith [mul_self_nonneg r, mul_self_nonneg i]
        show gmp_complex.mk r i = ⟨0, 0⟩
        rw [hr, hi]
      show gmp_complex.mul ⟨r, i⟩ (gmp_complex.inv ⟨r, i⟩) = ⟨1, 0⟩
      simp only [gmp_complex.mul, gmp_complex.inv, gmp_complex.norm, gmp_complex.mk.injEq]
      constructor
      · field_simp
      · field_simp
        ring
  inv_zero := by
    show gmp_complex.inv ⟨0, 0⟩ = ⟨0, 0⟩
    simp [gmp_complex.inv, gmp_complex.norm]

/-- Embedding of the GMP `inverse` friend function: it computes
`{re / d, -im / d}` with `d` the squared magnitude, and fails (the C++ code
throws `TRIQS_RUNTIME_ERROR "GMP division by zero"`) exactly when `d == 0`. -/
def gmp_complex.inverse (z : gmp_complex) : Option gmp_complex :=
  if gmp_complex.norm z = 0 then none else some (gmp_complex.inv z)

/-- The hardcoded truncation threshold `1.0e-20` of the coefficient loop. -/
def trunc_eps : ℚ := 1 / 10 ^ 20

/-- Sequential fallible map: runs `f` on the list elements in order and fails
as soon as one application fails, like the inner `for (j …)` loop of the
constructor in which any thrown exception aborts the whole loop. -/
def seqOpt {α β : Type} (f : α → Option β) : List α → Option (List β)
  | [] => some []
  | x :: xs => do
    let y ← f x
    let ys ← seqOpt f xs
    some (y :: ys)

/-- One inner-loop step of the constructor, for row `p` and column `j`:
`x = g(p-1,p-1) / g(p-1,j) - MP_1; y = z_in(j) - z_in(p-1); g(p,j) = x / y`,
where `a / b` is `a * inverse b` and can fail.  Here `d = g(p-1,p-1)`,
`zprev = z_in(p-1)`, `zj = z_in(j)`, `gj = g(p-1,j)`. -/
def rowStep (d zprev zj gj : gmp_complex) : Option gmp_complex := do
  let ginv ← gmp_complex.inverse gj
  let x := d * ginv - 1
  let y := zj - zprev
  let yinv ← gmp_complex.inverse y
  some (x * yinv)

/-- The inner `for (j = p; j < N; ++j)` loop of the constructor: computes row
`p` of the tableau (columns `p … N-1`) from the previous row.  `ztail` holds
`z_in(p) … z_in(N-1)` and `grow` holds `g(p-1,p) … g(p-1,N-1)`. -/
def nextRow (d zprev : gmp_complex) (ztail grow : List gmp_complex) :
    Option (List gmp_complex) :=
  seqOpt (fun p => rowStep d zprev p.1 p.2) (ztail.zip grow)

/-- The outer `for (p = 1; p < N; ++p)` loop of the constructor together with
the diagonal extraction.  The state entering iteration `p` is
`d = g(p-1,p-1)`, `grow = [g(p-1,p), …, g(p-1,N-1)]`, `zprev = z_in(p-1)` and
the fourth argument `[z_in(p), …, z_in(N-1)]`.  The result is the diagonal
`[g(p-1,p-1), g(p,p), …, g(N-1,N-1)]`, i.e. the coefficients `a(p-1…N-1)`.
If the truncation test `g(p-1,p-1).norm() < 1.0e-20` fires, the loop breaks
and all remaining tableau rows — hence all remaining diagonal entries — keep
their zero initialisation. -/
def diagRec : gmp_complex → List gmp_complex → gmp_complex → List gmp_complex →
    Option (List gmp_complex)
  | d, _, _, [] => some [d]
  | d, grow, zprev, zp :: zrest =>
    if gmp_complex.norm d < trunc_eps then
      some (d :: List.replicate (zrest.length + 1) 0)
    else do
      let r ← nextRow d zprev (zp :: zrest) grow
      match r with
      | [] => some [d]
      | dnew :: rest => do
        let ds ← diagRec dnew rest zp zrest
        some (d :: ds)

/-- Variant of `diagRec` that refuses (returns `none`) instead of truncating:
it succeeds exactly on the runs of the constructor in which the truncation
branch is never taken, and then returns the same diagonal. -/
def diagRecNT : gmp_complex → List gmp_complex → gmp_complex → List gmp_complex →
    Option (List gmp_complex)
  | d, _, _, [] => some [d]
  | d, grow, zprev, zp :: zrest =>
    if gmp_complex.norm d < trunc_eps then none
    else do
      let r ← nextRow d zprev (zp :: zrest) grow
      match r with
      | [] => some [d]
      | dnew :: rest => do
        let ds ← diagRecNT dnew rest zp zrest
        some (d :: ds)

/-- Embedding of the `pade_approximant` object: the stored frequency points
`z_in` and Pade coefficients `a`. -/
structure pade_approximant where
  z_in : List gmp_complex
  a : List gmp_complex
deriving DecidableEq

/-- The coefficients computed by the constructor: row 0 of the tableau is the
sample values `u_in`, and `diagRec` performs the recursion and extracts the
diagonal.  For `N = 0` nothing is computed and the coefficient vector is
empty.  (The arm with more points than values cannot arise: the object is
always built from equal-length vectors.) -/
def pade_coeffs (z u : List gmp_complex) : Option (List gmp_complex) :=
  match z, u with
  | [], _ => some []
  | _ :: _, [] => none
  | z0 :: zrest, u0 :: urest => diagRec u0 urest z0 zrest

/-- Embedding of the `pade_approximant` constructor: on success it stores the
input points and the computed coefficients; a GMP division by zero aborts the
construction with no object produced. -/
def pade_build (z u : List gmp_complex) : Option pade_approximant :=
  (pade_coeffs z u).map (fun ds => { z_in := z, a := ds })

/-- Like `pade_coeffs` but via `diagRecNT`: succeeds exactly on the runs in
which the truncation branch is never taken. -/
def pade_coeffsNT (z u : List gmp_complex) : Option (List gmp_complex) :=
  match z, u with
  | [], _ => some []
  | _ :: _, [] => none
  | z0 :: zrest, u0 :: urest => diagRecNT u0 urest z0 zrest

/-- Like `pade_build` but via `diagRecNT` (no truncation allowed). -/
def pade_buildNT (z u : List gmp_complex) : Option pade_approximant :=
  (pade_coeffsNT z u).map (fun ds => { z_in := z, a := ds })

/-- The loop of `operator()`: the list holds the pairs `(z_in(i), a(i+1))` for
`i = 0 … N-2`, and the three accumulators are `A1`, `A2`, `B1`.  Each step
computes `Anew = A2 + (e - z_in(i)) * a(i+1) * A1`,
`Bnew = 1 + (e - z_in(i)) * a(i+1) * B1` and renormalises
`A1 = A2/Bnew; A2 = Anew/Bnew; B1 = 1/Bnew`; the result is the final `A2`. -/
def evalLoop (e : gmp_complex) :
    List (gmp_complex × gmp_complex) → gmp_complex → gmp_complex → gmp_complex →
    gmp_complex
  | [], _, A2, _ => A2
  | (zi, ai) :: rest, A1, A2, B1 =>
    evalLoop e rest (A2 / (1 + (e - zi) * ai * B1))
      ((A2 + (e - zi) * ai * A1) / (1 + (e - zi) * ai * B1))
      (1 / (1 + (e - zi) * ai * B1))

/-- Embedding of `operator()`: `A1 = 0`, `A2 = a(0)`, `B1 = 1`, then the loop
over `i = 0 … N-2` with `N = a.size()`.  Pairing `z_in` with the coefficient
tail produces exactly the reads `z_in(0…N-2)` and `a(1…N-1)`.  (For an empty
coefficient vector the C++ read `a(0)` would be out of bounds; the checked
variant `pade_evalChecked` models that, and this total version returns 0.) -/
def pade_eval (P : pade_approximant) (e : gmp_complex) : gmp_complex :=
  match P.a with
  | [] => 0
  | a0 :: arest => evalLoop e (P.z_in.zip arest) 0 a0 1

/-- Bounds-checked version of the evaluator loop, reading `z_in(i)` and
`a(i+1)` through fallible indexing; `k` counts the remaining iterations. -/
def evalLoopChecked (e : gmp_complex) (z a : List gmp_complex) :
    ℕ → ℕ → gmp_complex → gmp_complex → gmp_complex → Option gmp_complex
  | _, 0, _, A2, _ => some A2
  | i, k + 1, A1, A2, B1 => do
    let zi ← z[i]?
    let ai ← a[i + 1]?
    evalLoopChecked e z a (i + 1) k (A2 / (1 + (e - zi) * ai * B1))
      ((A2 + (e - zi) * ai * A1) / (1 + (e - zi) * ai * B1))
      (1 / (1 + (e - zi) * ai * B1))

/-- Bounds-checked embedding of `operator()`: performs every container access
of the C++ code through fallible indexing (`a(0)`, then `z_in(i)` and
`a(i+1)` for `i = 0 … N-2` with `N = a.size()`), failing on any
out-of-bounds access. -/
def pade_evalChecked (P : pade_approximant) (e : gmp_complex) :
    Option gmp_complex := do
  let a0 ← P.a[0]?
  evalLoopChecked e P.z_in P.a 0 (P.a.length - 1) 0 a0 1

/-- The hardcoded GMP working precision of the constructor. -/
def GMP_default_prec : ℕ := 256

/-- Frame-effect model of the constructor's handling of the process-wide GMP
default precision.  The C++ code runs `old_prec = mpf_get_default_prec()`,
then `mpf_set_default_prec(GMP_default_prec)`, builds the tableau, and only
after the loops runs `mpf_set_default_prec(old_prec)`.  A thrown
`TRIQS_RUNTIME_ERROR` propagates out of the constructor before the restore
statement, so on the error path the process-wide precision stays at
`GMP_default_prec`.  The function returns the constructor's result together
with the process-wide precision after the call, given the precision `prec`
before the call. -/
def pade_build_prec (z u : List gmp_complex) (prec : ℕ) :
    Option pade_approximant × ℕ :=
  match pade_build z u with
  | none => (none, GMP_default_prec)
  | some P => (some P, prec)

/-- Convergent pair of the continued fraction: for a list `ts` of partial
numerators, `cfAB ts = (A, B)` satisfies `cfAB [] = (1, 0)` and
`cfAB (t :: r) = (A r + B r, t * A r)`.  These are the numerator and
correction terms of the linear (Moebius) form of the evaluator recurrence. -/
def cfAB : List gmp_complex → gmp_complex × gmp_complex
  | [] => (1, 0)
  | t :: r => ((cfAB r).1 + (cfAB r).2, t * (cfAB r).1)

/-- First component of `cfAB`. -/
def cfA (ts : List gmp_complex) : gmp_complex := (cfAB ts).1

/-- Second component of `cfAB`. -/
def cfB (ts : List gmp_complex) : gmp_complex := (cfAB ts).2

/-- The nested denominator chain of the continued fraction: `cfK [] = 1` and
`cfK (t :: r) = 1 + t / cfK r`, i.e. `cfK [t0, t1, …] = 1 + t0/(1 + t1/(…))`. -/
def cfK : List gmp_complex → gmp_complex
  | [] => 1
  | t :: r => 1 + t / cfK r

/-- The partial numerators of the continued fraction evaluated at `e`:
`t_i = (e - z_i) * a_{i+1}`, where `arest` is the coefficient tail
`[a_1, …, a_{N-1}]`.  This is exactly the factor appearing in both update
lines of the evaluator loop. -/
def cfTerms (e : gmp_complex) (z arest : List gmp_complex) : List gmp_complex :=
  (z.zip arest).map (fun p => (e - p.1) * p.2)

/-- Modelled from the spec (glossary): the nested expression
`a0 + (x−z0)a1/(1 + (x−z1)a2/(1 + …))`, here written over the partial
numerators `ts`, so `glossaryCF a0 [] = a0` and
`glossaryCF a0 (t0 :: r) = a0 + t0 / (1 + t1/(1 + …))`. -/
def glossaryCF (a0 : gmp_complex) : List gmp_complex → gmp_complex
  | [] => a0
  | t :: r => a0 + t / cfK r

/-- Decides whether every renormalising denominator `Bnew` produced by the
evaluator loop on the given pair list, starting from the accumulator `B1`, is
nonzero. -/
def evalChainOk (e : gmp_complex) :
    List (gmp_complex × gmp_complex) → gmp_complex → Bool
  | [], _ => true
  | (zi, ai) :: rest, B1 =>
    if (1 + (e - zi) * ai * B1 : gmp_complex) = 0 then false
    else evalChainOk e rest (1 / (1 + (e - zi) * ai * B1))

/-- The Thiele continued fraction determined by coefficients
`[a0, a1, …]` and points `[z0, z1, …]` at the argument `x`:
`a0 / (1 + (x - z0) * (a1 / (1 + (x - z1) * (…))))`, the function the
coefficient recursion of the constructor inverts step by step. -/
def thiele (x : gmp_complex) : List gmp_complex → List gmp_complex → gmp_complex
  | [], _ => 0
  | [a0], _ => a0
  | a0 :: _ :: _, [] => a0
  | a0 :: a1 :: arest, z0 :: zrest =>
    a0 / (1 + (x - z0) * thiele x (a1 :: arest) zrest)

theorem gc_eq_iff (a b : gmp_complex) : a = b ↔ a.re = b.re ∧ a.im = b.im := by
  cases a; cases b
  simp [gmp_complex.mk.injEq]

theorem gc_add_re (a b : gmp_complex) : (a + b).re = b.re + a.re := rfl

theorem gc_add_im (a b : gmp_complex) : (a + b).im = b.im + a.im := rfl

theorem gc_sub_re (a b : gmp_complex) : (a - b).re = a.re - b.re := rfl

theorem gc_sub_im (a b : gmp_complex) : (a - b).im = a.im - b.im := rfl

theorem gc_mul_re (a b : gmp_complex) : (a * b).re = b.re * a.re - b.im * a.im := rfl

theorem gc_mul_im (a b : gmp_complex) : (a * b).im = b.re * a.im + b.im * a.re := rfl

theorem gc_neg_re (a : gmp_complex) : (-a).re = -a.re := rfl

theorem gc_neg_im (a : gmp_complex) : (-a).im = -a.im := rfl

theorem gc_inv_re (a : gmp_complex) :
    (a⁻¹).re = a.re / (a.re * a.re + a.im * a.im) := rfl

theorem gc_inv_im (a : gmp_complex) :
    (a⁻¹).im = -a.im / (a.re * a.re + a.im * a.im) := rfl

theorem gc_invf_re (a : gmp_complex) :
    (gmp_complex.inv a).re = a.re / (a.re * a.re + a.im * a.im) := rfl

theorem gc_invf_im (a : gmp_complex) :
    (gmp_complex.inv a).im = -a.im / (a.re * a.re + a.im * a.im) := rfl

theorem gc_one_re : (1 : gmp_complex).re = 1 := rfl

theorem gc_one_im : (1 : gmp_complex).im = 0 := rfl

theorem gc_zero_re : (0 : gmp_complex).re = 0 := rfl

theorem gc_zero_im : (0 : gmp_complex).im = 0 := rfl

theorem gc_norm_unfold (a : gmp_complex) :
    gmp_complex.norm a = a.re * a.re + a.im * a.im := rfl

theorem gc_inv_eq (a : gmp_complex) : gmp_complex.inv a = a⁻¹ := rfl

theorem gc_norm_eq_zero_iff (a : gmp_complex) : gmp_complex.norm a = 0 ↔ a = 0 := by
  cases a with
  | mk r i =>
    constructor
    · intro h
      rw [gc_norm_unfold] at h
      have hr : r = 0 := by nlinarith [mul_self_nonneg r, mul_self_nonneg i]
      have hi : i = 0 := by nlinarith [mul_self_nonneg r, mul_self_nonneg i]
      rw [gc_eq_iff]
      exact ⟨hr, hi⟩
    · intro h
      rw [h]
      simp [gc_norm_unfold, gc_zero_re, gc_zero_im]

theorem gc_inverse_eq_none_iff (a : gmp_complex) :
    gmp_complex.inverse a = none ↔ gmp_complex.norm a = 0 := by
  unfold gmp_complex.inverse
  split <;> simp_all

theorem gc_inverse_eq_some_iff (a b : gmp_complex) :
    gmp_complex.inverse a = some b ↔ a ≠ 0 ∧ b = a⁻¹ := by
  unfold gmp_complex.inverse
  split
  · next hn =>
    simp [(gc_norm_eq_zero_iff a).mp hn]
  · next hn =>
    have ha : a ≠ 0 := fun h0 => hn ((gc_norm_eq_zero_iff a).mpr h0)
    simp [gc_inv_eq, ha, eq_comm]

theorem gc_inverse_zero : gmp_complex.inverse 0 = none := by
  rw [gc_inverse_eq_none_iff, gc_norm_eq_zero_iff]

theorem seqOpt_cons_eq_some {α β : Type} (f : α → Option β) (x : α) (xs : List α)
    (r : List β) :
    seqOpt f (x :: xs) = some r ↔
      ∃ y ys, f x = some y ∧ seqOpt f xs = some ys ∧ r = y :: ys := by
  cases hfx : f x with
  | none => simp [seqOpt, hfx]
  | some y =>
    cases hxs : seqOpt f xs with
    | none => simp [seqOpt, hfx, hxs]
    | some ys => simp [seqOpt, hfx, hxs, eq_comm]

theorem seqOpt_length {α β : Type} (f : α → Option β) :
    ∀ (l : List α) (r : List β), seqOpt f l = some r → r.length = l.length := by
  intro l
  induction l with
  | nil =>
    intro r h
    simp only [seqOpt, Option.some.injEq] at h
    rw [← h]
    rfl
  | cons x xs ih =>
    intro r h
    rw [seqOpt_cons_eq_some] at h
    obtain ⟨y, ys, _, hxs, hr⟩ := h
    subst hr
    simp [ih ys hxs]

theorem seqOpt_getElem {α β : Type} (f : α → Option β) :
    ∀ (l : List α) (r : List β), seqOpt f l = some r →
      ∀ (i : ℕ) (hi : i < l.length) (hri : i < r.length), f l[i] = some r[i] := by
  intro l
  induction l with
  | nil =>
    intro r h i hi
    exact absurd hi (by simp)
  | cons x xs ih =>
    intro r h i hi hri
    rw [seqOpt_cons_eq_some] at h
    obtain ⟨y, ys, hfx, hxs, hr⟩ := h
    subst hr
    cases i with
    | zero => simpa using hfx
    | succ j =>
      have hj : j < xs.length := by simpa using hi
      have hrj : j < ys.length := by simpa using hri
      simpa using ih ys hxs j hj hrj

theorem seqOpt_eq_none_of_mem {α β : Type} (f : α → Option β) :
    ∀ (l : List α) (x : α), x ∈ l → f x = none → seqOpt f l = none := by
  intro l
  induction l with
  | nil =>
    intro x hx
    exact absurd hx (by simp)
  | cons hd tl ih =>
    intro x hx hfx
    rcases List.mem_cons.mp hx with h | h
    · subst h
      simp [seqOpt, hfx]
    · cases hfd : f hd with
      | none => simp [seqOpt, hfd]
      | some y => simp [seqOpt, hfd, ih x h hfx]

theorem cfA_nil : cfA [] = 1 := rfl

theorem cfB_nil : cfB [] = 0 := rfl

theorem cfA_cons (t : gmp_complex) (r : List gmp_complex) :
    cfA (t :: r) = cfA r + cfB r := rfl

theorem cfB_cons (t : gmp_complex) (r : List gmp_complex) :
    cfB (t :: r) = t * cfA r := rfl

theorem evalChainOk_cons_iff (e zi ai B1 : gmp_complex)
    (rest : List (gmp_complex × gmp_complex)) :
    evalChainOk e ((zi, ai) :: rest) B1 = true ↔
      (1 + (e - zi) * ai * B1 : gmp_complex) ≠ 0 ∧
        evalChainOk e rest (1 / (1 + (e - zi) * ai * B1)) = true := by
  by_cases hc : (1 + (e - zi) * ai * B1 : gmp_complex) = 0
  · rw [evalChainOk, if_pos hc]
    simp [hc]
  · rw [evalChainOk, if_neg hc]
    simp [hc]

theorem evalLoop_eq_cf (e : gmp_complex) :
    ∀ (l : List (gmp_complex × gmp_complex)) (A1 A2 B1 : gmp_complex),
      evalChainOk e l B1 = true →
      evalLoop e l A1 A2 B1 =
        (A2 * cfA (l.map (fun p => (e - p.1) * p.2))
            + A1 * cfB (l.map (fun p => (e - p.1) * p.2)))
          / (cfA (l.map (fun p => (e - p.1) * p.2))
            + B1 * cfB (l.map (fun p => (e - p.1) * p.2))) := by
  intro l
  induction l with
  | nil =>
    intro A1 A2 B1 _
    simp [evalLoop, cfA_nil, cfB_nil]
  | cons p rest ih =>
    obtain ⟨zi, ai⟩ := p
    intro A1 A2 B1 hchain
    rw [evalChainOk_cons_iff] at hchain
    obtain ⟨hBn, hrest⟩ := hchain
    rw [evalLoop, ih _ _ _ hrest]
    rw [List.map_cons, cfA_cons, cfB_cons]
    set w := (e - zi) * ai with hw
    set al := cfA (rest.map (fun p => (e - p.1) * p.2)) with ha
    set be := cfB (rest.map (fun p => (e - p.1) * p.2)) with hb
    have hden : al + 1 / (1 + w * B1) * be
        = ((al + be) + B1 * (w * al)) / (1 + w * B1) := by
      field_simp
      ring
    rw [hden]
    by_cases hD : (al + be) + B1 * (w * al) = 0
    · rw [hD]
      simp
    · rw [div_div_eq_mul_div]
      have hnum : ((A2 + w * A1) / (1 + w * B1) * al + A2 / (1 + w * B1) * be)
            * (1 + w * B1)
          = A2 * (al + be) + A1 * (w * al) := by
        field_simp
        ring
      rw [hnum]

theorem evalChain_denom_ne (e : gmp_complex) :
    ∀ (l : List (gmp_complex × gmp_complex)) (B1 : gmp_complex),
      evalChainOk e l B1 = true →
      cfA (l.map (fun p => (e - p.1) * p.2))
        + B1 * cfB (l.map (fun p => (e - p.1) * p.2)) ≠ 0 := by
  intro l
  induction l with
  | nil =>
    intro B1 _
    simp [cfA_nil, cfB_nil]
  | cons p rest ih =>
    obtain ⟨zi, ai⟩ := p
    intro B1 hchain
    rw [evalChainOk_cons_iff] at hchain
    obtain ⟨hBn, hrest⟩ := hchain
    have hih := ih _ hrest
    rw [List.map_cons, cfA_cons, cfB_cons]
    set w := (e - zi) * ai with hw
    set al := cfA (rest.map (fun p => (e - p.1) * p.2)) with ha
    set be := cfB (rest.map (fun p => (e - p.1) * p.2)) with hb
    intro hD
    apply hih
    have : al + 1 / (1 + w * B1) * be
        = ((al + be) + B1 * (w * al)) / (1 + w * B1) := by
      field_simp
      ring
    rw [this, hD, zero_div]

theorem evalLoop_snd_zero (e : gmp_complex) :
    ∀ (l : List (gmp_complex × gmp_complex)) (A1 A2 B1 : gmp_complex),
      (∀ p ∈ l, p.2 = 0) → evalLoop e l A1 A2 B1 = A2 := by
  intro l
  induction l with
  | nil =>
    intro A1 A2 B1 _
    rfl
  | cons p rest ih =>
    obtain ⟨zi, ai⟩ := p
    intro A1 A2 B1 hz
    have hai : ai = 0 := hz (zi, ai) (by simp)
    rw [evalLoop, hai]
    simp only [mul_zero, zero_mul, add_zero, div_one]
    exact ih _ _ _ (fun q hq => hz q (by simp [hq]))

theorem cfK_nil : cfK [] = 1 := rfl

theorem cfK_cons (t : gmp_complex) (r : List gmp_complex) :
    cfK (t :: r) = 1 + t / cfK r := rfl

theorem cfTerms_nil_left (x : gmp_complex) (arest : List gmp_complex) :
    cfTerms x [] arest = [] := rfl

theorem cfTerms_nil_right (x : gmp_complex) (z : List gmp_complex) :
    cfTerms x z [] = [] := by
  simp [cfTerms]

theorem cfTerms_cons (x z0 a1 : gmp_complex) (zrest arest : List gmp_complex) :
    cfTerms x (z0 :: zrest) (a1 :: arest)
      = (x - z0) * a1 :: cfTerms x zrest arest := rfl

theorem cfAB_append_of_cfB_eq_zero (v : List gmp_complex) (hv : cfB v = 0) :
    ∀ u : List gmp_complex,
      cfA (u ++ v) = cfA u * cfA v ∧ cfB (u ++ v) = cfB u * cfA v := by
  intro u
  induction u with
  | nil =>
    constructor
    · rw [List.nil_append, cfA_nil, one_mul]
    · rw [List.nil_append, cfB_nil, zero_mul, hv]
  | cons t u' ih =>
    obtain ⟨h1, h2⟩ := ih
    constructor
    · rw [List.cons_append, cfA_cons, h1, h2, cfA_cons]
      ring
    · rw [List.cons_append, cfB_cons, h1, cfB_cons]
      ring

theorem cfK_prefix (v : List gmp_complex) (hvK : cfK v = 1) :
    ∀ u : List gmp_complex,
      (∀ m, m ≤ u.length → cfK (u.drop m ++ v) ≠ 0) →
      cfA u ≠ 0 ∧ cfK (u ++ v) = (cfA u + cfB u) / cfA u := by
  intro u
  induction u with
  | nil =>
    intro _
    refine ⟨by rw [cfA_nil]; exact one_ne_zero, ?_⟩
    rw [List.nil_append, cfA_nil, cfB_nil, add_zero, div_one, hvK]
  | cons t u' ih =>
    intro hm
    have hm' : ∀ m, m ≤ u'.length → cfK (u'.drop m ++ v) ≠ 0 := by
      intro m hmle
      have := hm (m + 1) (by simpa using hmle)
      simpa using this
    obtain ⟨hA', hK'⟩ := ih hm'
    have hKne : cfK (u' ++ v) ≠ 0 := by
      have := hm 1 (by simp)
      simpa using this
    have hABne : cfA u' + cfB u' ≠ 0 := by
      intro h0
      apply hKne
      rw [hK', h0, zero_div]
    refine ⟨by rw [cfA_cons]; exact hABne, ?_⟩
    rw [List.cons_append, cfK_cons, hK', cfA_cons, cfB_cons, div_div_eq_mul_div]
    rw [add_div, div_self hABne]

theorem thiele_eq_cfK (x : gmp_complex) :
    ∀ (arest : List gmp_complex) (a0 : gmp_complex) (z : List gmp_complex),
      thiele x (a0 :: arest) z = a0 / cfK (cfTerms x z arest) := by
  intro arest
  induction arest with
  | nil =>
    intro a0 z
    rw [cfTerms_nil_right, cfK_nil, div_one]
    cases z <;> rfl
  | cons a1 arest' ih =>
    intro a0 z
    cases z with
    | nil =>
      rw [cfTerms_nil_left, cfK_nil, div_one]
      rfl
    | cons z0 zrest =>
      show a0 / (1 + (x - z0) * thiele x (a1 :: arest') zrest) = _
      rw [ih a1 zrest, cfTerms_cons, cfK_cons, ← mul_div_assoc]

theorem diagRecNT_cons_elim {d zprev zp : gmp_complex} {grow zrest : List gmp_complex}
    {ds : List gmp_complex}
    (h : diagRecNT d grow zprev (zp :: zrest) = some ds) :
    ¬ gmp_complex.norm d < trunc_eps ∧
      ∃ r, nextRow d zprev (zp :: zrest) grow = some r ∧
        ((r = [] ∧ ds = [d]) ∨
          ∃ dnew rest ds', r = dnew :: rest ∧
            diagRecNT dnew rest zp zrest = some ds' ∧ ds = d :: ds') := by
  by_cases heps : gmp_complex.norm d < trunc_eps
  · rw [diagRecNT, if_pos heps] at h
    exact absurd h (by simp)
  · rw [diagRecNT, if_neg heps] at h
    refine ⟨heps, ?_⟩
    cases hnr : nextRow d zprev (zp :: zrest) grow with
    | none =>
      rw [hnr] at h
      exact absurd h (by simp)
    | some r =>
      rw [hnr] at h
      refine ⟨r, rfl, ?_⟩
      cases r with
      | nil =>
        left
        simp only [Option.bind_eq_bind, Option.some_bind, Option.some.injEq] at h
        exact ⟨rfl, h.symm⟩
      | cons dnew rest =>
        right
        simp only [Option.bind_eq_bind, Option.some_bind, Option.bind_eq_some,
          Option.some.injEq] at h
        obtain ⟨ds', hds', hcons⟩ := h
        exact ⟨dnew, rest, ds', rfl, hds', hcons.symm⟩

theorem diagRec_cons_elim {d zprev zp : gmp_complex} {grow zrest : List gmp_complex}
    {ds : List gmp_complex}
    (h : diagRec d grow zprev (zp :: zrest) = some ds)
    (heps : ¬ gmp_complex.norm d < trunc_eps) :
    ∃ r, nextRow d zprev (zp :: zrest) grow = some r ∧
      ((r = [] ∧ ds = [d]) ∨
        ∃ dnew rest ds', r = dnew :: rest ∧
          diagRec dnew rest zp zrest = some ds' ∧ ds = d :: ds') := by
  rw [diagRec, if_neg heps] at h
  cases hnr : nextRow d zprev (zp :: zrest) grow with
  | none =>
    rw [hnr] at h
    exact absurd h (by simp)
  | some r =>
    rw [hnr] at h
    refine ⟨r, rfl, ?_⟩
    cases r with
    | nil =>
      left
      simp only [Option.bind_eq_bind, Option.some_bind, Option.some.injEq] at h
      exact ⟨rfl, h.symm⟩
    | cons dnew rest =>
      right
      simp only [Option.bind_eq_bind, Option.some_bind, Option.bind_eq_some,
        Option.some.injEq] at h
      obtain ⟨ds', hds', hcons⟩ := h
      exact ⟨dnew, rest, ds', rfl, hds', hcons.symm⟩

theorem diagRecNT_shape :
    ∀ (ztail grow : List gmp_complex) (d zprev : gmp_complex) (ds : List gmp_complex),
      diagRecNT d grow zprev ztail = some ds → ∃ tl, ds = d :: tl := by
  intro ztail grow d zprev ds h
  cases ztail with
  | nil =>
    rw [diagRecNT] at h
    exact ⟨[], by simpa using h.symm⟩
  | cons zp zrest =>
    obtain ⟨_, r, _, hcase⟩ := diagRecNT_cons_elim h
    rcases hcase with ⟨_, hds⟩ | ⟨dnew, rest, ds', _, _, hds⟩
    · exact ⟨[], hds⟩
    · exact ⟨ds', hds⟩

theorem diagRecNT_imp_diagRec :
    ∀ (ztail grow : List gmp_complex) (d zprev : gmp_complex) (ds : List gmp_complex),
      diagRecNT d grow zprev ztail = some ds →
      diagRec d grow zprev ztail = some ds := by
  intro ztail
  induction ztail with
  | nil =>
    intro grow d zprev ds h
    rw [diagRecNT] at h
    rw [diagRec]
    exact h
  | cons zp zrest ih =>
    intro grow d zprev ds h
    obtain ⟨heps, r, hnr, hcase⟩ := diagRecNT_cons_elim h
    rw [diagRec, if_neg heps, hnr]
    rcases hcase with ⟨hrnil, hds⟩ | ⟨dnew, rest, ds', hrcons, hrec, hds⟩
    · subst hrnil hds
      rfl
    · subst hrcons hds
      simp only [Option.bind_eq_bind, Option.some_bind]
      rw [ih rest dnew zp ds' hrec]
      rfl

theorem interp_main :
    ∀ (ztail grow : List gmp_complex) (d zprev : gmp_complex) (ds : List gmp_complex),
      grow.length = ztail.length →
      diagRecNT d grow zprev ztail = some ds →
      ∀ j, j < (d :: grow).length →
        thiele ((zprev :: ztail).getD j 0) ds (zprev :: ztail)
            = (d :: grow).getD j 0
          ∧ ∀ m, m ≤ j →
              cfK ((cfTerms ((zprev :: ztail).getD j 0) (zprev :: ztail) ds.tail).drop m)
                ≠ 0 := by
  intro ztail
  induction ztail with
  | nil =>
    intro grow d zprev ds hlen h j hj
    have hg : grow = [] := List.length_eq_zero.mp (by simpa using hlen)
    subst hg
    have hds : ds = [d] := by
      rw [diagRecNT] at h
      simpa using h.symm
    subst hds
    have hj0 : j = 0 := by simpa using hj
    subst hj0
    refine ⟨rfl, ?_⟩
    intro m hm
    have hm0 : m = 0 := Nat.le_zero.mp hm
    subst hm0
    rw [List.drop_zero]
    show cfK (cfTerms zprev [zprev] []) ≠ 0
    rw [cfTerms_nil_right, cfK_nil]
    exact one_ne_zero
  | cons zp zrest ih =>
    intro grow d zprev ds hlen h j hj
    obtain ⟨heps, r, hnr, hcase⟩ := diagRecNT_cons_elim h
    have hglen : grow.length = zrest.length + 1 := by simpa using hlen
    have hrlen : r.length = zrest.length + 1 := by
      have hl := seqOpt_length _ _ _ hnr
      rw [List.length_zip, List.length_cons, hglen] at hl
      simpa using hl
    rcases hcase with ⟨hrnil, _⟩ | ⟨dnew, rest, ds', hrcons, hrec, hds⟩
    · rw [hrnil] at hrlen
      exact absurd hrlen (by simp)
    · subst hrcons hds
      have hrestlen : rest.length = zrest.length := by simpa using hrlen
      have hd0 : d ≠ 0 := by
        intro h0
        apply heps
        rw [h0, (gc_norm_eq_zero_iff (0 : gmp_complex)).mpr rfl]
        norm_num [trunc_eps]
      obtain ⟨tl', hds'⟩ := diagRecNT_shape zrest rest dnew zp ds' hrec
      cases j with
      | zero =>
        subst hds'
        constructor
        · show thiele zprev (d :: dnew :: tl') (zprev :: zp :: zrest) = d
          show d / (1 + (zprev - zprev) * thiele zprev (dnew :: tl') (zp :: zrest)) = d
          rw [sub_self, zero_mul, add_zero, div_one]
        · intro m hm
          have hm0 : m = 0 := Nat.le_zero.mp hm
          subst hm0
          rw [List.drop_zero]
          show cfK (cfTerms zprev (zprev :: zp :: zrest) (dnew :: tl')) ≠ 0
          rw [cfTerms_cons, cfK_cons, sub_self, zero_mul, zero_div, add_zero]
          exact one_ne_zero
      | succ j' =>
        have hj'g : j' < grow.length := by simpa using hj
        have hj'r : j' < (dnew :: rest).length := by
          simp only [List.length_cons]
          omega
        have hj'zip : j' < ((zp :: zrest).zip grow).length := by
          rw [List.length_zip, List.length_cons, hglen]
          omega
        have hstep := seqOpt_getElem _ _ _ hnr j' hj'zip hj'r
        rw [List.getElem_zip] at hstep
        have hj'z : j' < (zp :: zrest).length := by
          simp only [List.length_cons]
          omega
        -- name the node and the previous-row entry
        set x := ((zp :: zrest)[j']) with hx
        set gj := (grow[j']) with hgj
        -- unpack the row step
        rw [rowStep] at hstep
        simp only [Option.bind_eq_bind, Option.bind_eq_some] at hstep
        obtain ⟨ginv, hginv, hstep2⟩ := hstep
        obtain ⟨yinv, hyinv, hval⟩ := hstep2
        rw [gc_inverse_eq_some_iff] at hginv
        rw [gc_inverse_eq_some_iff] at hyinv
        obtain ⟨hgj0, hginv'⟩ := hginv
        obtain ⟨hy0, hyinv'⟩ := hyinv
        rw [Option.some_inj] at hval
        subst hginv' hyinv'
        -- the induction hypothesis at column j' of the lower state
        have hIH := ih rest dnew zp ds' hrestlen hrec j' hj'r
        obtain ⟨hthiele', hcfK'⟩ := hIH
        -- getD values in terms of getElem
        have hgetz : ((zprev :: zp :: zrest).getD (j' + 1) 0) = x := by
          rw [List.getD_cons_succ]
          rw [List.getD_eq_getElem _ _ hj'z]
        have hgetz' : ((zp :: zrest).getD j' 0) = x := by
          rw [List.getD_eq_getElem _ _ hj'z]
        have hgetg : ((d :: grow).getD (j' + 1) 0) = gj := by
          rw [List.getD_cons_succ]
          rw [List.getD_eq_getElem _ _ hj'g]
        have hgetr : ((dnew :: rest).getD j' 0) = (d * gj⁻¹ - 1) * (x - zprev)⁻¹ := by
          rw [List.getD_eq_getElem _ _ hj'r]
          rw [← hval]
        rw [hgetz'] at hthiele' hcfK'
        rw [hgetr] at hthiele'
        -- the value of the tail fraction at the node, via thiele_eq_cfK
        subst hds'
        -- key: denominator of the current level equals d / gj
        have hden : 1 + (x - zprev) * thiele x (dnew :: tl') (zp :: zrest) = d * gj⁻¹ := by
          rw [hthiele']
          have : (x - zprev) * ((d * gj⁻¹ - 1) * (x - zprev)⁻¹) = d * gj⁻¹ - 1 := by
            field_simp
            ring
          rw [this]
          ring
        constructor
        · rw [hgetz, hgetg]
          show thiele x (d :: dnew :: tl') (zprev :: zp :: zrest) = gj
          show d / (1 + (x - zprev) * thiele x (dnew :: tl') (zp :: zrest)) = gj
          rw [hden]
          field_simp
        · intro m hm
          rw [hgetz]
          cases m with
          | zero =>
            rw [List.drop_zero]
            show cfK (cfTerms x (zprev :: zp :: zrest) (dnew :: tl')) ≠ 0
            rw [cfTerms_cons, cfK_cons]
            have htl : thiele x (dnew :: tl') (zp :: zrest)
                = dnew / cfK (cfTerms x (zp :: zrest) tl') := thiele_eq_cfK x tl' dnew _
            have hrewrite : (x - zprev) * dnew / cfK (cfTerms x (zp :: zrest) tl')
                = (x - zprev) * thiele x (dnew :: tl') (zp :: zrest) := by
              rw [htl, ← mul_div_assoc]
            rw [hrewrite]
            rw [hden]
            exact mul_ne_zero hd0 (inv_ne_zero hgj0)
          | succ m' =>
            have hm' : m' ≤ j' := by omega
            have := hcfK' m' hm'
            show cfK ((cfTerms x (zprev :: zp :: zrest) (dnew :: tl')).drop (m' + 1)) ≠ 0
            rw [cfTerms_cons, List.drop_succ_cons]
            exact this

theorem evalLoopChecked_eq (e : gmp_complex) (z a : List gmp_complex) :
    ∀ (k i : ℕ) (A1 A2 B1 : gmp_complex),
      i + k + 1 = a.length → a.length = z.length →
      evalLoopChecked e z a i k A1 A2 B1
        = some (evalLoop e ((z.drop i).zip (a.drop (i + 1))) A1 A2 B1) := by
  intro k
  induction k with
  | zero =>
    intro i A1 A2 B1 hik hlen
    have hdrop : a.drop (i + 1) = [] := List.drop_eq_nil_of_le (by omega)
    rw [hdrop, List.zip_nil_right]
    rfl
  | succ k ihk =>
    intro i A1 A2 B1 hik hlen
    have hiz : i < z.length := by omega
    have hia : i + 1 < a.length := by omega
    rw [evalLoopChecked]
    rw [List.getElem?_eq_getElem hiz, List.getElem?_eq_getElem hia]
    simp only [Option.bind_eq_bind, Option.some_bind]
    rw [ihk (i + 1) _ _ _ (by omega) hlen]
    rw [List.drop_eq_getElem_cons hiz, List.drop_eq_getElem_cons hia]
    rfl

theorem pade_evalChecked_eq (P : pade_approximant) (e : gmp_complex)
    (hlen : P.a.length = P.z_in.length) (hN : 1 ≤ P.a.length) :
    pade_evalChecked P e = some (pade_eval P e) := by
  obtain ⟨z, a⟩ := P
  cases a with
  | nil => simp at hN
  | cons a0 arest =>
    show (do
      let b ← (a0 :: arest)[0]?
      evalLoopChecked e z (a0 :: arest) 0 ((a0 :: arest).length - 1) 0 b 1)
        = some (pade_eval ⟨z, a0 :: arest⟩ e)
    rw [show ((a0 :: arest) : List gmp_complex)[0]? = some a0 by
      rw [List.getElem?_eq_getElem (by simp)]
      rfl]
    simp only [Option.bind_eq_bind, Option.some_bind]
    rw [evalLoopChecked_eq e z (a0 :: arest) ((a0 :: arest).length - 1) 0 0 a0 1
      (by simp) (by simpa using hlen)]
    rfl

theorem zip_eq_take_zip {α β : Type} :
    ∀ (l : List α) (l' : List β), l.zip l' = (l.take l'.length).zip l' := by
  intro l
  induction l with
  | nil =>
    intro l'
    simp
  | cons x xs ih =>
    intro l'
    cases l' with
    | nil => simp
    | cons y ys =>
      simp only [List.length_cons, List.take_succ_cons, List.zip_cons_cons]
      rw [← ih ys]

/-- Claim C4: during Build, at every step `p` in `1..N-1` — i.e. in every state
of the constructor loop that still has at least one remaining point — if the
squared magnitude of the diagonal tableau entry `g(p-1,p-1)` is below the fixed
threshold `1e-20`, the recursion stops entirely and the returned diagonal
suffix (the extracted coefficients `a(p-1), a(p), …, a(N-1)`) is the current
entry followed by zeros only, i.e. every coefficient `a(j)` with `j ≥ p` is
zero (the tableau rows from `p` on keep their zero initialisation). -/
theorem claim_C4 (d zprev zp : gmp_complex) (grow zrest : List gmp_complex)
    (h : gmp_complex.norm d < trunc_eps) :
    diagRec d grow zprev (zp :: zrest)
      = some (d :: List.replicate (zrest.length + 1) 0) := by
  rw [diagRec, if_pos h]

theorem claim_C4_witness :
    gmp_complex.norm 0 < trunc_eps ∧
    diagRec 0 [⟨1, 0⟩] ⟨1, 0⟩ [⟨2, 0⟩] = some (0 :: List.replicate 1 0) := by
  have h : gmp_complex.norm 0 < trunc_eps := by
    norm_num [gc_norm_unfold, gc_zero_re, gc_zero_im, trunc_eps]
  exact ⟨h, claim_C4 0 ⟨1, 0⟩ ⟨2, 0⟩ [⟨1, 0⟩] [] h⟩

/-- Claim C6: the extended-precision `inverse` fails exactly when its operand's
squared magnitude is zero, and when such a failure occurs during Build outside
the truncation branch (the diagonal test did not fire, and the row computation
throws), it propagates: the whole recursion returns `none`, so the constructor
aborts and no partial `pade_approximant` is produced — as in the concrete run
with `z = {0, 1}`, `u = {1, 0}`, where `g(0,1) = 0` must be inverted. -/
theorem claim_C6 :
    (∀ g : gmp_complex, gmp_complex.inverse g = none ↔ gmp_complex.norm g = 0) ∧
    (∀ (d zprev zp : gmp_complex) (grow zrest : List gmp_complex),
      ¬ gmp_complex.norm d < trunc_eps →
      nextRow d zprev (zp :: zrest) grow = none →
      diagRec d grow zprev (zp :: zrest) = none) ∧
    pade_build [⟨0, 0⟩, ⟨1, 0⟩] [⟨1, 0⟩, ⟨0, 0⟩] = none := by
  refine ⟨gc_inverse_eq_none_iff, ?_, ?_⟩
  · intro d zprev zp grow zrest heps hnone
    rw [diagRec, if_neg heps, hnone]
    rfl
  · norm_num [pade_build, pade_coeffs, diagRec, nextRow, seqOpt, rowStep,
      gmp_complex.inverse, trunc_eps, Option.bind, gc_eq_iff,
      gc_add_re, gc_add_im, gc_sub_re, gc_sub_im, gc_mul_re, gc_mul_im,
      gc_invf_re, gc_invf_im, gc_one_re, gc_one_im, gc_zero_re, gc_zero_im,
      gc_norm_unfold, div_eq_mul_inv, gc_inv_re, gc_inv_im]

theorem claim_C6_witness :
    (¬ gmp_complex.norm (⟨1, 0⟩ : gmp_complex) < trunc_eps) ∧
    nextRow ⟨1, 0⟩ ⟨0, 0⟩ [⟨1, 0⟩] [⟨0, 0⟩] = none ∧
    diagRec ⟨1, 0⟩ [⟨0, 0⟩] ⟨0, 0⟩ [⟨1, 0⟩] = none := by
  have h1 : ¬ gmp_complex.norm (⟨1, 0⟩ : gmp_complex) < trunc_eps := by
    norm_num [gc_norm_unfold, trunc_eps]
  have h2 : nextRow ⟨1, 0⟩ ⟨0, 0⟩ [⟨1, 0⟩] [⟨0, 0⟩] = none := by
    norm_num [nextRow, seqOpt, rowStep, gmp_complex.inverse, gc_norm_unfold,
      gc_zero_re, gc_zero_im, Option.bind]
  exact ⟨h1, h2, claim_C6.2.1 ⟨1, 0⟩ ⟨0, 0⟩ ⟨1, 0⟩ [⟨0, 0⟩] [] h1 h2⟩

/-- Claim C8: the constructor's result and the process-wide GMP default
precision after the call: the result is that of the tableau computation, on
every successful Build the precision saved at entry is restored, and on the
error path (a GMP division by zero thrown during the tableau computation) the
restore statement is skipped, leaving the process-wide precision at
`GMP_default_prec = 256`. -/
theorem claim_C8 (z u : List gmp_complex) (prec : ℕ) :
    (pade_build_prec z u prec).1 = pade_build z u ∧
    (∀ P, pade_build z u = some P → (pade_build_prec z u prec).2 = prec) ∧
    (pade_build z u = none →
      (pade_build_prec z u prec).2 = GMP_default_prec) := by
  unfold pade_build_prec
  cases h : pade_build z u with
  | none => simp
  | some P => simp

theorem claim_C8_witness :
    pade_build [(⟨1, 0⟩ : gmp_complex)] [(⟨2, 0⟩ : gmp_complex)]
        = some ⟨[⟨1, 0⟩], [⟨2, 0⟩]⟩ ∧
    (pade_build_prec [⟨1, 0⟩] [⟨2, 0⟩] 64).2 = 64 ∧
    pade_build [⟨0, 0⟩, ⟨1, 0⟩] [⟨1, 0⟩, ⟨0, 0⟩] = none ∧
    (pade_build_prec [⟨0, 0⟩, ⟨1, 0⟩] [⟨1, 0⟩, ⟨0, 0⟩] 64).2 = GMP_default_prec := by
  have hs : pade_build [(⟨1, 0⟩ : gmp_complex)] [(⟨2, 0⟩ : gmp_complex)]
      = some ⟨[⟨1, 0⟩], [⟨2, 0⟩]⟩ := rfl
  have hf : pade_build [⟨0, 0⟩, ⟨1, 0⟩] [⟨1, 0⟩, ⟨0, 0⟩] = none := claim_C6.2.2
  exact ⟨hs, (claim_C8 _ _ 64).2.1 _ hs, hf, (claim_C8 _ _ 64).2.2 hf⟩

/-- Claim C7 (amended): duplicated FrequencyPoints make Build fail with the
GMP division-by-zero error only when the recursion actually reaches a row
whose pivot `z_in(p-1)` recurs among the remaining points — in particular
whenever `z_in(0)` recurs and `|u_in(0)|² ≥ 1e-20`.  (If a truncation break
fires first, Build can succeed despite the duplicate; see the
counterexample.)  First conjunct: any loop state whose pivot recurs in the
remaining points, with the truncation test not firing, aborts with `none`.
Second conjunct: the concrete top-level consequence for a duplicate of
`z_in(0)`. -/
theorem claim_C7 :
    (∀ (d zprev : gmp_complex) (grow ztail : List gmp_complex),
      ¬ gmp_complex.norm d < trunc_eps → zprev ∈ ztail →
      ztail.length ≤ grow.length →
      diagRec d grow zprev ztail = none) ∧
    (∀ (z0 u0 : gmp_complex) (zrest urest : List gmp_complex),
      zrest.length ≤ urest.length → ¬ gmp_complex.norm u0 < trunc_eps →
      z0 ∈ zrest →
      pade_build (z0 :: zrest) (u0 :: urest) = none) := by
  have h1 : ∀ (d zprev : gmp_complex) (grow ztail : List gmp_complex),
      ¬ gmp_complex.norm d < trunc_eps → zprev ∈ ztail →
      ztail.length ≤ grow.length →
      diagRec d grow zprev ztail = none := by
    intro d zprev grow ztail heps hmem hlen
    cases ztail with
    | nil => simp at hmem
    | cons zp zrest =>
      rw [diagRec, if_neg heps]
      have hnone : nextRow d zprev (zp :: zrest) grow = none := by
        obtain ⟨n, hn, hzn⟩ := List.mem_iff_getElem.mp hmem
        have hng : n < grow.length := by
          simp only [List.length_cons] at hn hlen
          omega
        have hnzip : n < ((zp :: zrest).zip grow).length := by
          rw [List.length_zip]
          omega
        have hpair : ((zp :: zrest).zip grow)[n]
            = ((zp :: zrest)[n], grow[n]) := List.getElem_zip
        apply seqOpt_eq_none_of_mem _ _ ((zp :: zrest)[n], grow[n])
        · rw [← hpair]
          exact List.getElem_mem hnzip
        · show rowStep d zprev ((zp :: zrest)[n]) (grow[n]) = none
          rw [hzn, rowStep]
          cases hinv : gmp_complex.inverse (grow[n]) with
          | none => simp [hinv]
          | some gi =>
            simp only [hinv, Option.bind_eq_bind, Option.some_bind]
            rw [sub_self, gc_inverse_zero]
            rfl
      rw [hnone]
      rfl
  refine ⟨h1, ?_⟩
  intro z0 u0 zrest urest hlen heps hmem
  show (pade_coeffs (z0 :: zrest) (u0 :: urest)).map _ = none
  show (diagRec u0 urest z0 zrest).map _ = none
  rw [h1 u0 z0 urest zrest heps hmem hlen]
  rfl

theorem claim_C7_witness :
    (¬ gmp_complex.norm (⟨1, 0⟩ : gmp_complex) < trunc_eps) ∧
    (⟨0, 0⟩ : gmp_complex) ∈ [(⟨0, 0⟩ : gmp_complex)] ∧
    pade_build [⟨0, 0⟩, ⟨0, 0⟩] [⟨1, 0⟩, ⟨2, 0⟩] = none := by
  have h1 : ¬ gmp_complex.norm (⟨1, 0⟩ : gmp_complex) < trunc_eps := by
    norm_num [gc_norm_unfold, trunc_eps]
  have h2 : (⟨0, 0⟩ : gmp_complex) ∈ [(⟨0, 0⟩ : gmp_complex)] := by simp
  exact ⟨h1, h2, claim_C7.2 ⟨0, 0⟩ ⟨1, 0⟩ [⟨0, 0⟩] [⟨2, 0⟩] (by simp) h1 h2⟩

/-- Claim C7 counterexample: with the duplicated points `z = {1, 2, 2}` and the
constant values `u = {5, 5, 5}`, the truncation break fires at step `p = 2`
before the duplicate is ever divided by, and Build succeeds (returning the
approximant with coefficients `{5, 0, 0}`) instead of raising any error —
refuting the claim that every input with two identical FrequencyPoints makes
Build fail. -/
theorem claim_C7_counterexample :
    pade_build [⟨1, 0⟩, ⟨2, 0⟩, ⟨2, 0⟩] [⟨5, 0⟩, ⟨5, 0⟩, ⟨5, 0⟩]
      = some ⟨[⟨1, 0⟩, ⟨2, 0⟩, ⟨2, 0⟩], [⟨5, 0⟩, 0, 0]⟩ := by
  norm_num [pade_build, pade_coeffs, diagRec, nextRow, seqOpt, rowStep,
    gmp_complex.inverse, trunc_eps, Option.bind, List.replicate,
    pade_approximant.mk.injEq, gc_eq_iff,
    gc_add_re, gc_add_im, gc_sub_re, gc_sub_im, gc_mul_re, gc_mul_im,
    gc_invf_re, gc_invf_im, gc_inv_re, gc_inv_im, gc_one_re, gc_one_im,
    gc_zero_re, gc_zero_im, gc_norm_unfold, div_eq_mul_inv]

/-- Claim C9: for `N ≥ 1` every container access of the evaluator is in
bounds: reading `a(0)` and then, for `i = 0 … N-2`, `z_in(i)` and `a(i+1)`
through checked indexing succeeds and returns the same value as the evaluator
(so only `a(0..N-1)` and `z_in(0..N-2)` are read); for `N = 0` the initial
read `a(0)` is out of bounds, so the checked evaluator fails — the unstated
precondition `N ≥ 1`; and Build itself performs no element access when
`N = 0` and succeeds with an empty approximant. -/
theorem claim_C9 :
    (∀ (P : pade_approximant) (e : gmp_complex),
      P.a.length = P.z_in.length → 1 ≤ P.a.length →
      pade_evalChecked P e = some (pade_eval P e)) ∧
    (∀ (z : List gmp_complex) (e : gmp_complex),
      pade_evalChecked ⟨z, []⟩ e = none) ∧
    pade_build [] [] = some ⟨[], []⟩ := by
  refine ⟨fun P e h1 h2 => pade_evalChecked_eq P e h1 h2, ?_, rfl⟩
  intro z e
  rfl

theorem claim_C9_witness :
    ([(⟨2, 0⟩ : gmp_complex)] : List gmp_complex).length
        = ([(⟨1, 0⟩ : gmp_complex)] : List gmp_complex).length ∧
    1 ≤ ([(⟨2, 0⟩ : gmp_complex)] : List gmp_complex).length ∧
    pade_evalChecked ⟨[⟨1, 0⟩], [⟨2, 0⟩]⟩ ⟨7, 0⟩
      = some (pade_eval ⟨[⟨1, 0⟩], [⟨2, 0⟩]⟩ ⟨7, 0⟩) := by
  exact ⟨rfl, by norm_num,
    claim_C9.1 ⟨[⟨1, 0⟩], [⟨2, 0⟩]⟩ ⟨7, 0⟩ rfl (by norm_num)⟩

/-- Claim C10: the evaluator never reads the last FrequencyPoint `z_in(N-1)`:
for two approximants with equal coefficient vectors whose points agree at
indices `0 … N-2` (the last point may differ), evaluation returns identical
values at every query point. -/
theorem claim_C10 (P Q : pade_approximant) (e : gmp_complex)
    (ha : P.a = Q.a)
    (hz : P.z_in.take (P.a.length - 1) = Q.z_in.take (P.a.length - 1)) :
    pade_eval P e = pade_eval Q e := by
  obtain ⟨zP, aP⟩ := P
  obtain ⟨zQ, aQ⟩ := Q
  simp only at ha hz
  subst ha
  cases aP with
  | nil => rfl
  | cons a0 arest =>
    show evalLoop e (zP.zip arest) 0 a0 1 = evalLoop e (zQ.zip arest) 0 a0 1
    have hzip : zP.zip arest = zQ.zip arest := by
      rw [zip_eq_take_zip zP arest, zip_eq_take_zip zQ arest]
      have hlen : ((a0 :: arest) : List gmp_complex).length - 1 = arest.length := by
        simp
      rw [hlen] at hz
      rw [hz]
    rw [hzip]

theorem claim_C10_witness :
    (pade_approximant.mk [⟨1, 0⟩, ⟨2, 0⟩, ⟨9, 0⟩] [⟨1, 0⟩, ⟨1, 0⟩, ⟨1, 0⟩]).a
        = (pade_approximant.mk [⟨1, 0⟩, ⟨2, 0⟩, ⟨7, 0⟩] [⟨1, 0⟩, ⟨1, 0⟩, ⟨1, 0⟩]).a ∧
    pade_eval ⟨[⟨1, 0⟩, ⟨2, 0⟩, ⟨9, 0⟩], [⟨1, 0⟩, ⟨1, 0⟩, ⟨1, 0⟩]⟩ ⟨5, 0⟩
      = pade_eval ⟨[⟨1, 0⟩, ⟨2, 0⟩, ⟨7, 0⟩], [⟨1, 0⟩, ⟨1, 0⟩, ⟨1, 0⟩]⟩ ⟨5, 0⟩ := by
  exact ⟨rfl,
    claim_C10 ⟨[⟨1, 0⟩, ⟨2, 0⟩, ⟨9, 0⟩], [⟨1, 0⟩, ⟨1, 0⟩, ⟨1, 0⟩]⟩
      ⟨[⟨1, 0⟩, ⟨2, 0⟩, ⟨7, 0⟩], [⟨1, 0⟩, ⟨1, 0⟩, ⟨1, 0⟩]⟩ ⟨5, 0⟩ rfl rfl⟩

theorem nextRow_const (c z0 : gmp_complex) (hc0 : c ≠ 0) :
    ∀ l : List gmp_complex, (∀ w ∈ l, w ≠ z0) →
      nextRow c z0 l (List.replicate l.length c)
        = some (List.replicate l.length 0) := by
  intro l
  induction l with
  | nil => intro _; rfl
  | cons w l' ihl =>
    intro hw
    have hstep : rowStep c z0 w c = some 0 := by
      rw [rowStep]
      have hinv : gmp_complex.inverse c = some c⁻¹ :=
        (gc_inverse_eq_some_iff c c⁻¹).mpr ⟨hc0, rfl⟩
      have hwne : w - z0 ≠ 0 := sub_ne_zero.mpr (hw w (by simp))
      have hyinv : gmp_complex.inverse (w - z0) = some (w - z0)⁻¹ :=
        (gc_inverse_eq_some_iff _ _).mpr ⟨hwne, rfl⟩
      rw [hinv]
      simp only [Option.bind_eq_bind, Option.some_bind]
      rw [hyinv]
      simp only [Option.some_bind]
      rw [mul_inv_cancel₀ hc0, sub_self, zero_mul]
    show seqOpt _ ((w :: l').zip (List.replicate (w :: l').length c)) = _
    rw [List.length_cons, List.replicate_succ, List.zip_cons_cons, seqOpt]
    simp only [Option.bind_eq_bind]
    rw [hstep]
    simp only [Option.some_bind]
    have hih := ihl (fun v hv => hw v (by simp [hv]))
    rw [nextRow] at hih
    rw [hih]
    simp only [Option.some_bind]
    rw [List.replicate_succ]

/-- Claim C5: if all sample values are identical (equal to `c`) and the
frequency points are distinct, Build yields `a(0) = c` and `a(j) = 0` for
every `j ≥ 1`, and the evaluator returns `c` at every query point; the
witness instantiates the truncation scenario `z = {1,2,3,4}`, all values `5`,
coefficients `{5,0,0,0}`, evaluation `5` everywhere. -/
theorem claim_C5 (c : gmp_complex) (z : List gmp_complex)
    (hz : z ≠ []) (hdist : z.Pairwise (fun a b => a ≠ b)) :
    pade_build z (List.replicate z.length c)
        = some ⟨z, c :: List.replicate (z.length - 1) 0⟩ ∧
    ∀ e, pade_eval ⟨z, c :: List.replicate (z.length - 1) 0⟩ e = c := by
  obtain ⟨z0, zrest, rfl⟩ := List.exists_cons_of_ne_nil hz
  constructor
  · have hne : ∀ w ∈ zrest, w ≠ z0 := by
      intro w hw hwz
      exact (List.pairwise_cons.mp hdist).1 w hw hwz.symm
    have hkey : diagRec c (List.replicate zrest.length c) z0 zrest
        = some (c :: List.replicate zrest.length 0) := by
      by_cases hc : gmp_complex.norm c < trunc_eps
      · cases zrest with
        | nil => rfl
        | cons zp zr =>
          rw [diagRec, if_pos hc]
          rfl
      · have hc0 : c ≠ 0 := by
          intro h0
          apply hc
          rw [h0, (gc_norm_eq_zero_iff 0).mpr rfl]
          norm_num [trunc_eps]
        cases zrest with
        | nil => rfl
        | cons zp zr =>
          rw [diagRec, if_neg hc]
          have hrow := nextRow_const c z0 hc0 (zp :: zr) (fun w hw => hne w hw)
          rw [hrow]
          simp only [Option.bind_eq_bind, Option.some_bind]
          have hinner : diagRec 0 (List.replicate zr.length 0) zp zr
              = some (0 :: List.replicate zr.length 0) := by
            cases zr with
            | nil => rfl
            | cons q qr =>
              rw [diagRec, if_pos (by
                rw [(gc_norm_eq_zero_iff 0).mpr rfl]
                norm_num [trunc_eps])]
              rfl
          rw [show List.replicate ((zp :: zr) : List gmp_complex).length
              (0 : gmp_complex) = 0 :: List.replicate zr.length 0 from rfl]
          show (do
            let ds ← diagRec 0 (List.replicate zr.length 0) zp zr
            some (c :: ds))
              = some (c :: List.replicate ((zp :: zr) : List gmp_complex).length 0)
          rw [hinner]
          rfl
    show (diagRec c (List.replicate zrest.length c) z0 zrest).map _ = _
    rw [hkey]
    rfl
  · intro e
    show evalLoop e
        ((z0 :: zrest).zip
          (List.replicate ((z0 :: zrest).length - 1) 0)) 0 c 1 = c
    apply evalLoop_snd_zero
    intro p hp
    exact List.eq_of_mem_replicate (List.of_mem_zip hp).2

theorem claim_C5_witness :
    ([⟨1, 0⟩, ⟨2, 0⟩, ⟨3, 0⟩, ⟨4, 0⟩] : List gmp_complex) ≠ [] ∧
    ([⟨1, 0⟩, ⟨2, 0⟩, ⟨3, 0⟩, ⟨4, 0⟩] : List gmp_complex).Pairwise
      (fun a b => a ≠ b) ∧
    pade_build [⟨1, 0⟩, ⟨2, 0⟩, ⟨3, 0⟩, ⟨4, 0⟩]
        (List.replicate
          ([⟨1, 0⟩, ⟨2, 0⟩, ⟨3, 0⟩, ⟨4, 0⟩] : List gmp_complex).length ⟨5, 0⟩)
      = some ⟨[⟨1, 0⟩, ⟨2, 0⟩, ⟨3, 0⟩, ⟨4, 0⟩],
          ⟨5, 0⟩ :: List.replicate
            (([⟨1, 0⟩, ⟨2, 0⟩, ⟨3, 0⟩, ⟨4, 0⟩] : List gmp_complex).length - 1) 0⟩ ∧
    pade_eval ⟨[⟨1, 0⟩, ⟨2, 0⟩, ⟨3, 0⟩, ⟨4, 0⟩],
        ⟨5, 0⟩ :: List.replicate
          (([⟨1, 0⟩, ⟨2, 0⟩, ⟨3, 0⟩, ⟨4, 0⟩] : List gmp_complex).length - 1) 0⟩
      ⟨7, 0⟩ = ⟨5, 0⟩ := by
  have hne : ([⟨1, 0⟩, ⟨2, 0⟩, ⟨3, 0⟩, ⟨4, 0⟩] : List gmp_complex) ≠ [] := by
    simp
  have hpw : ([⟨1, 0⟩, ⟨2, 0⟩, ⟨3, 0⟩, ⟨4, 0⟩] : List gmp_complex).Pairwise
      (fun a b => a ≠ b) := by
    decide
  have h := claim_C5 ⟨5, 0⟩ [⟨1, 0⟩, ⟨2, 0⟩, ⟨3, 0⟩, ⟨4, 0⟩] hne hpw
  exact ⟨hne, hpw, h.1, h.2 ⟨7, 0⟩⟩

/-- Claim C2 (amended): for every approximant with coefficients
`a0 :: arest` and points `z`, and every query `e` at which no renormalising
denominator `Bnew` of the evaluator recurrence is zero AND every partial
denominator of the nested continued fraction is nonzero, the stabilised
recurrence returns the value of the nested continued fraction
`a0 / (1 + (e−z0)a1/(1 + (e−z1)a2/(1 + …)))` — note the leading `a0 / (1 + …)`,
not the glossary's `a0 + (e−z0)a1/(1 + …)` (see the counterexample). -/
theorem claim_C2 (z arest : List gmp_complex) (a0 e : gmp_complex)
    (hchain : evalChainOk e (z.zip arest) 1 = true)
    (hK : ∀ m, m ≤ (cfTerms e z arest).length →
      cfK ((cfTerms e z arest).drop m) ≠ 0) :
    pade_eval ⟨z, a0 :: arest⟩ e = a0 / cfK (cfTerms e z arest) := by
  have heval := evalLoop_eq_cf e (z.zip arest) 0 a0 1 hchain
  have hmap : (z.zip arest).map (fun p => (e - p.1) * p.2) = cfTerms e z arest := rfl
  rw [hmap] at heval
  have hKdrop : ∀ m, m ≤ (cfTerms e z arest).length →
      cfK ((cfTerms e z arest).drop m ++ []) ≠ 0 := by
    intro m hm
    rw [List.append_nil]
    exact hK m hm
  obtain ⟨hA, hKeq⟩ := cfK_prefix [] rfl (cfTerms e z arest) hKdrop
  rw [List.append_nil] at hKeq
  have hABne : cfA (cfTerms e z arest) + cfB (cfTerms e z arest) ≠ 0 := by
    intro h0
    apply hK 0 (by omega)
    rw [List.drop_zero, hKeq, h0, zero_div]
  show evalLoop e (z.zip arest) 0 a0 1 = _
  rw [heval, hKeq, zero_mul, add_zero, one_mul, div_div_eq_mul_div]

/-- Claim C2 counterexample: with coefficients `a = {1, 1}`, points
`z = {0, 1}` and query `x = 1`, no renormalising denominator is zero (the
single `Bnew` is `2`), yet the recurrence returns `1/2` while the glossary's
nested expression `a0 + (x−z0)a1/(1 + …)` evaluates to `2` — so the
recurrence does not compute the glossary formula (it computes
`a0 / (1 + (x−z0)a1/(1 + …))`). -/
theorem claim_C2_counterexample :
    evalChainOk ⟨1, 0⟩ ([((⟨0, 0⟩ : gmp_complex), (⟨1, 0⟩ : gmp_complex))]) 1
        = true ∧
    pade_eval ⟨[⟨0, 0⟩, ⟨1, 0⟩], [⟨1, 0⟩, ⟨1, 0⟩]⟩ ⟨1, 0⟩ = ⟨1/2, 0⟩ ∧
    glossaryCF ⟨1, 0⟩ (cfTerms ⟨1, 0⟩ [⟨0, 0⟩, ⟨1, 0⟩] [⟨1, 0⟩]) = ⟨2, 0⟩ ∧
    (⟨1/2, 0⟩ : gmp_complex) ≠ ⟨2, 0⟩ := by
  refine ⟨?_, ?_, ?_, ?_⟩
  · norm_num [evalChainOk, gc_eq_iff, gc_add_re, gc_add_im, gc_sub_re,
      gc_sub_im, gc_mul_re, gc_mul_im, gc_one_re, gc_one_im, gc_zero_re,
      gc_zero_im]
  · norm_num [pade_eval, evalLoop, gc_eq_iff, div_eq_mul_inv,
      gc_add_re, gc_add_im, gc_sub_re, gc_sub_im, gc_mul_re, gc_mul_im,
      gc_inv_re, gc_inv_im, gc_one_re, gc_one_im, gc_zero_re, gc_zero_im]
  · norm_num [glossaryCF, cfTerms, cfK, gc_eq_iff, div_eq_mul_inv,
      gc_add_re, gc_add_im, gc_sub_re, gc_sub_im, gc_mul_re, gc_mul_im,
      gc_inv_re, gc_inv_im, gc_one_re, gc_one_im, gc_zero_re, gc_zero_im]
  · norm_num [gc_eq_iff]

theorem claim_C2_witness :
    evalChainOk ⟨5/2, 0⟩
        (([⟨1, 0⟩, ⟨2, 0⟩, ⟨3, 0⟩] : List gmp_complex).zip
          [⟨-3/4, 0⟩, ⟨11/16, 0⟩]) 1 = true ∧
    (∀ m, m ≤ (cfTerms ⟨5/2, 0⟩ [⟨1, 0⟩, ⟨2, 0⟩, ⟨3, 0⟩]
        [⟨-3/4, 0⟩, ⟨11/16, 0⟩]).length →
      cfK ((cfTerms ⟨5/2, 0⟩ [⟨1, 0⟩, ⟨2, 0⟩, ⟨3, 0⟩]
        [⟨-3/4, 0⟩, ⟨11/16, 0⟩]).drop m) ≠ 0) ∧
    pade_eval ⟨[⟨1, 0⟩, ⟨2, 0⟩, ⟨3, 0⟩], [⟨1, 0⟩, ⟨-3/4, 0⟩, ⟨11/16, 0⟩]⟩
        ⟨5/2, 0⟩
      = ⟨1, 0⟩ / cfK (cfTerms ⟨5/2, 0⟩ [⟨1, 0⟩, ⟨2, 0⟩, ⟨3, 0⟩]
          [⟨-3/4, 0⟩, ⟨11/16, 0⟩]) := by
  have h1 : evalChainOk ⟨5/2, 0⟩
      (([⟨1, 0⟩, ⟨2, 0⟩, ⟨3, 0⟩] : List gmp_complex).zip
        [⟨-3/4, 0⟩, ⟨11/16, 0⟩]) 1 = true := by
    norm_num [evalChainOk, gc_eq_iff, div_eq_mul_inv, gc_add_re, gc_add_im,
      gc_sub_re, gc_sub_im, gc_mul_re, gc_mul_im, gc_inv_re, gc_inv_im,
      gc_one_re, gc_one_im, gc_zero_re, gc_zero_im]
  have h2 : ∀ m, m ≤ (cfTerms ⟨5/2, 0⟩ [⟨1, 0⟩, ⟨2, 0⟩, ⟨3, 0⟩]
      [⟨-3/4, 0⟩, ⟨11/16, 0⟩]).length →
      cfK ((cfTerms ⟨5/2, 0⟩ [⟨1, 0⟩, ⟨2, 0⟩, ⟨3, 0⟩]
        [⟨-3/4, 0⟩, ⟨11/16, 0⟩]).drop m) ≠ 0 := by
    intro m hm
    rw [show (cfTerms ⟨5/2, 0⟩ [⟨1, 0⟩, ⟨2, 0⟩, ⟨3, 0⟩]
      [⟨-3/4, 0⟩, ⟨11/16, 0⟩]).length = 2 from rfl] at hm
    interval_cases m <;>
      norm_num [cfTerms, cfK, gc_eq_iff, div_eq_mul_inv, gc_add_re, gc_add_im,
        gc_sub_re, gc_sub_im, gc_mul_re, gc_mul_im, gc_inv_re, gc_inv_im,
        gc_one_re, gc_one_im, gc_zero_re, gc_zero_im]
  exact ⟨h1, h2, claim_C2 [⟨1, 0⟩, ⟨2, 0⟩, ⟨3, 0⟩] [⟨-3/4, 0⟩, ⟨11/16, 0⟩]
    ⟨1, 0⟩ ⟨5/2, 0⟩ h1 h2⟩

/-- Claim C1 (amended): for every approximant built from `N ≥ 1`
pairwise-distinct points `z` and values `u` by a run of the constructor in
which the truncation branch never fires (`pade_buildNT` succeeds), and every
index `k < N` such that no renormalising denominator of the evaluator
recurrence vanishes at the node `z(k)`, the construction also succeeds as the
plain Build with the same result and `Evaluate(z(k)) = u(k)` exactly (the
embedding is exact rational arithmetic).  The counterexample shows both side
conditions are necessary: truncation or a vanishing recurrence denominator
each break exact interpolation on the real code. -/
theorem claim_C1 (z u : List gmp_complex) (P : pade_approximant) (k : ℕ)
    (hlen : u.length = z.length)
    (hdist : z.Pairwise (fun a b => a ≠ b))
    (hNT : pade_buildNT z u = some P)
    (hk : k < z.length)
    (hchain : evalChainOk (z.getD k 0) (P.z_in.zip P.a.tail) 1 = true) :
    pade_build z u = some P ∧ pade_eval P (z.getD k 0) = u.getD k 0 := by
  cases z with
  | nil => simp at hk
  | cons z0 zrest =>
    cases u with
    | nil => simp at hlen
    | cons u0 urest =>
      unfold pade_buildNT at hNT
      cases hds : pade_coeffsNT (z0 :: zrest) (u0 :: urest) with
      | none =>
        rw [hds] at hNT
        simp at hNT
      | some ds =>
        rw [hds] at hNT
        simp only [Option.map_some'] at hNT
        have hP : P = ⟨z0 :: zrest, ds⟩ := (Option.some.inj hNT).symm
        subst hP
        have hrec : diagRecNT u0 urest z0 zrest = some ds := hds
        have hulen : urest.length = zrest.length := by simpa using hlen
        have hbuild : pade_build (z0 :: zrest) (u0 :: urest)
            = some (⟨z0 :: zrest, ds⟩ : pade_approximant) := by
          show (diagRec u0 urest z0 zrest).map _ = _
          rw [diagRecNT_imp_diagRec zrest urest u0 z0 ds hrec]
          rfl
        refine ⟨hbuild, ?_⟩
        have hkj : k < ((u0 :: urest) : List gmp_complex).length := by
          simp only [List.length_cons] at hk ⊢
          omega
        have hmain := interp_main zrest urest u0 z0 ds hulen hrec k hkj
        obtain ⟨hth, hKs⟩ := hmain
        obtain ⟨tl, hds_shape⟩ := diagRecNT_shape zrest urest u0 z0 ds hrec
        subst hds_shape
        simp only [List.tail_cons] at hKs
        rw [thiele_eq_cfK] at hth
        set x := ((z0 :: zrest).getD k 0) with hxdef
        set ts := cfTerms x (z0 :: zrest) tl with hts
        have hchain' : evalChainOk x ((z0 :: zrest).zip tl) 1 = true := hchain
        have heval := evalLoop_eq_cf x ((z0 :: zrest).zip tl) 0 u0 1 hchain'
        have hmap : ((z0 :: zrest).zip tl).map (fun p => (x - p.1) * p.2) = ts := rfl
        rw [hmap] at heval
        have hfull0 := evalChain_denom_ne x ((z0 :: zrest).zip tl) 1 hchain'
        rw [hmap, one_mul] at hfull0
        have hvfacts : cfB (ts.drop k) = 0 ∧ cfK (ts.drop k) = 1 := by
          by_cases hkts : k < ts.length
          · have hkzip : k < ((z0 :: zrest).zip tl).length := by
              have : ts.length = ((z0 :: zrest).zip tl).length := by
                rw [hts]
                exact List.length_map _ _
              omega
            have hkz : k < ((z0 :: zrest) : List gmp_complex).length := hk
            have htsk : ts[k] = 0 := by
              have h2 : ∀ hh : k < (((z0 :: zrest).zip tl).map
                  (fun p => (x - p.1) * p.2)).length,
                  (((z0 :: zrest).zip tl).map (fun p => (x - p.1) * p.2))[k]
                    = 0 := by
                intro hh
                rw [List.getElem_map, List.getElem_zip]
                have hxk : x = ((z0 :: zrest)[k]) := by
                  rw [hxdef]
                  exact List.getD_eq_getElem _ _ hkz
                rw [← hxk, sub_self, zero_mul]
              exact h2 hkts
            rw [List.drop_eq_getElem_cons hkts, htsk]
            exact ⟨by rw [cfB_cons, zero_mul],
              by rw [cfK_cons, zero_div, add_zero]⟩
          · have hnil : ts.drop k = [] := List.drop_eq_nil_of_le (by omega)
            rw [hnil]
            exact ⟨cfB_nil, cfK_nil⟩
        obtain ⟨hvB, hvK⟩ := hvfacts
        have happ : ∀ m, m ≤ (ts.take k).length →
            (ts.take k).drop m ++ ts.drop k = ts.drop m := by
          intro m hm
          conv_rhs => rw [← List.take_append_drop k ts]
          rw [List.drop_append_of_le_length hm]
        have hKsup : ∀ m, m ≤ (ts.take k).length →
            cfK ((ts.take k).drop m ++ ts.drop k) ≠ 0 := by
          intro m hm
          rw [happ m hm]
          apply hKs
          have : (ts.take k).length ≤ k := by
            rw [List.length_take]
            omega
          omega
        obtain ⟨hAtk, hKeq⟩ := cfK_prefix (ts.drop k) hvK (ts.take k) hKsup
        rw [List.take_append_drop] at hKeq
        obtain ⟨hAapp, hBapp⟩ := cfAB_append_of_cfB_eq_zero (ts.drop k) hvB (ts.take k)
        rw [List.take_append_drop] at hAapp hBapp
        have hsum : cfA ts + cfB ts
            = (cfA (ts.take k) + cfB (ts.take k)) * cfA (ts.drop k) := by
          rw [hAapp, hBapp]
          ring
        have hAv : cfA (ts.drop k) ≠ 0 := by
          intro h0
          apply hfull0
          rw [hsum, h0, mul_zero]
        show pade_eval ⟨z0 :: zrest, u0 :: tl⟩ x = ((u0 :: urest) : List gmp_complex).getD k 0
        show evalLoop x ((z0 :: zrest).zip tl) 0 u0 1 = _
        rw [heval, zero_mul, add_zero, one_mul]
        rw [← hth, hKeq, div_div_eq_mul_div]
        rw [hsum, hAapp, ← mul_assoc]
        exact mul_div_mul_right _ _ hAv

/-- Claim C1 counterexample: exact interpolation fails on the code as
literally claimed, in two ways.  (1) Truncation: with the distinct points
`z = {1, 2}` and values `u = {0, 1}`, the truncation test fires at `p = 1`
(`|g(0,0)|² = 0 < 1e-20`), Build succeeds with coefficients `{0, 0}`, and
`Evaluate(z(1)) = 0 ≠ 1 = u(1)`.  (2) Vanishing renormalising denominator:
with `z = {0, 1, 2}`, `u = {1, 2, 3}`, Build succeeds with no truncation
(coefficients `{1, -1/2, 1/2}`), but at the node `z(2) = 2` the first
`Bnew` is exactly `0` and the recurrence returns `0 ≠ 3 = u(2)` (the C++
double code produces `inf`/`NaN` there). -/
theorem claim_C1_counterexample :
    (pade_build [⟨1, 0⟩, ⟨2, 0⟩] [⟨0, 0⟩, ⟨1, 0⟩]
        = some ⟨[⟨1, 0⟩, ⟨2, 0⟩], [0, 0]⟩ ∧
      pade_eval ⟨[⟨1, 0⟩, ⟨2, 0⟩], [0, 0]⟩ ⟨2, 0⟩ = 0 ∧
      (0 : gmp_complex) ≠ ⟨1, 0⟩) ∧
    (pade_build [⟨0, 0⟩, ⟨1, 0⟩, ⟨2, 0⟩] [⟨1, 0⟩, ⟨2, 0⟩, ⟨3, 0⟩]
        = some ⟨[⟨0, 0⟩, ⟨1, 0⟩, ⟨2, 0⟩], [⟨1, 0⟩, ⟨-1/2, 0⟩, ⟨1/2, 0⟩]⟩ ∧
      pade_eval ⟨[⟨0, 0⟩, ⟨1, 0⟩, ⟨2, 0⟩], [⟨1, 0⟩, ⟨-1/2, 0⟩, ⟨1/2, 0⟩]⟩
          ⟨2, 0⟩ = 0 ∧
      (0 : gmp_complex) ≠ ⟨3, 0⟩) := by
  refine ⟨⟨?_, ?_, ?_⟩, ⟨?_, ?_, ?_⟩⟩
  · norm_num [pade_build, pade_coeffs, diagRec, nextRow, seqOpt, rowStep,
      gmp_complex.inverse, trunc_eps, Option.bind, List.replicate,
      pade_approximant.mk.injEq, gc_eq_iff, gc_add_re, gc_add_im, gc_sub_re,
      gc_sub_im, gc_mul_re, gc_mul_im, gc_invf_re, gc_invf_im, gc_inv_re,
      gc_inv_im, gc_one_re, gc_one_im, gc_zero_re, gc_zero_im,
      gc_norm_unfold, div_eq_mul_inv]
  · norm_num [pade_eval, evalLoop, gc_eq_iff, div_eq_mul_inv, gc_add_re,
      gc_add_im, gc_sub_re, gc_sub_im, gc_mul_re, gc_mul_im, gc_inv_re,
      gc_inv_im, gc_one_re, gc_one_im, gc_zero_re, gc_zero_im]
  · norm_num [gc_eq_iff, gc_one_re, gc_one_im, gc_zero_re, gc_zero_im]
  · norm_num [pade_build, pade_coeffs, diagRec, nextRow, seqOpt, rowStep,
      gmp_complex.inverse, trunc_eps, Option.bind, List.replicate,
      pade_approximant.mk.injEq, gc_eq_iff, gc_add_re, gc_add_im, gc_sub_re,
      gc_sub_im, gc_mul_re, gc_mul_im, gc_invf_re, gc_invf_im, gc_inv_re,
      gc_inv_im, gc_one_re, gc_one_im, gc_zero_re, gc_zero_im,
      gc_norm_unfold, div_eq_mul_inv]
  · norm_num [pade_eval, evalLoop, gc_eq_iff, div_eq_mul_inv, gc_add_re,
      gc_add_im, gc_sub_re, gc_sub_im, gc_mul_re, gc_mul_im, gc_inv_re,
      gc_inv_im, gc_one_re, gc_one_im, gc_zero_re, gc_zero_im]
  · norm_num [gc_eq_iff, gc_zero_re, gc_zero_im]

theorem claim_C1_witness :
    ([⟨1, 0⟩, ⟨4, 0⟩, ⟨9, 0⟩] : List gmp_complex).length
        = ([⟨1, 0⟩, ⟨2, 0⟩, ⟨3, 0⟩] : List gmp_complex).length ∧
    pade_buildNT [⟨1, 0⟩, ⟨2, 0⟩, ⟨3, 0⟩] [⟨1, 0⟩, ⟨4, 0⟩, ⟨9, 0⟩]
        = some ⟨[⟨1, 0⟩, ⟨2, 0⟩, ⟨3, 0⟩], [⟨1, 0⟩, ⟨-3/4, 0⟩, ⟨11/16, 0⟩]⟩ ∧
    evalChainOk (([⟨1, 0⟩, ⟨2, 0⟩, ⟨3, 0⟩] : List gmp_complex).getD 0 0)
        (([⟨1, 0⟩, ⟨2, 0⟩, ⟨3, 0⟩] : List gmp_complex).zip
          [⟨-3/4, 0⟩, ⟨11/16, 0⟩]) 1 = true ∧
    pade_build [⟨1, 0⟩, ⟨2, 0⟩, ⟨3, 0⟩] [⟨1, 0⟩, ⟨4, 0⟩, ⟨9, 0⟩]
        = some ⟨[⟨1, 0⟩, ⟨2, 0⟩, ⟨3, 0⟩], [⟨1, 0⟩, ⟨-3/4, 0⟩, ⟨11/16, 0⟩]⟩ ∧
    pade_eval ⟨[⟨1, 0⟩, ⟨2, 0⟩, ⟨3, 0⟩], [⟨1, 0⟩, ⟨-3/4, 0⟩, ⟨11/16, 0⟩]⟩
        (([⟨1, 0⟩, ⟨2, 0⟩, ⟨3, 0⟩] : List gmp_complex).getD 0 0)
      = ([⟨1, 0⟩, ⟨4, 0⟩, ⟨9, 0⟩] : List gmp_complex).getD 0 0 := by
  have hNT : pade_buildNT [⟨1, 0⟩, ⟨2, 0⟩, ⟨3, 0⟩] [⟨1, 0⟩, ⟨4, 0⟩, ⟨9, 0⟩]
      = some ⟨[⟨1, 0⟩, ⟨2, 0⟩, ⟨3, 0⟩], [⟨1, 0⟩, ⟨-3/4, 0⟩, ⟨11/16, 0⟩]⟩ := by
    norm_num [pade_buildNT, pade_coeffsNT, diagRecNT, nextRow, seqOpt, rowStep,
      gmp_complex.inverse, trunc_eps, Option.bind, pade_approximant.mk.injEq,
      gc_eq_iff, gc_add_re, gc_add_im, gc_sub_re, gc_sub_im, gc_mul_re,
      gc_mul_im, gc_invf_re, gc_invf_im, gc_inv_re, gc_inv_im, gc_one_re,
      gc_one_im, gc_zero_re, gc_zero_im, gc_norm_unfold, div_eq_mul_inv]
  have hchain : evalChainOk (([⟨1, 0⟩, ⟨2, 0⟩, ⟨3, 0⟩] : List gmp_complex).getD 0 0)
      (([⟨1, 0⟩, ⟨2, 0⟩, ⟨3, 0⟩] : List gmp_complex).zip
        [⟨-3/4, 0⟩, ⟨11/16, 0⟩]) 1 = true := by
    norm_num [evalChainOk, List.getD, gc_eq_iff, div_eq_mul_inv, gc_add_re,
      gc_add_im, gc_sub_re, gc_sub_im, gc_mul_re, gc_mul_im, gc_inv_re,
      gc_inv_im, gc_one_re, gc_one_im, gc_zero_re, gc_zero_im]
  have hdist : ([⟨1, 0⟩, ⟨2, 0⟩, ⟨3, 0⟩] : List gmp_complex).Pairwise
      (fun a b => a ≠ b) := by decide
  have h := claim_C1 [⟨1, 0⟩, ⟨2, 0⟩, ⟨3, 0⟩] [⟨1, 0⟩, ⟨4, 0⟩, ⟨9, 0⟩]
    ⟨[⟨1, 0⟩, ⟨2, 0⟩, ⟨3, 0⟩], [⟨1, 0⟩, ⟨-3/4, 0⟩, ⟨11/16, 0⟩]⟩ 0
    rfl hdist hNT (by norm_num) hchain
  exact ⟨rfl, hNT, hchain, h.1, h.2⟩

/-- Claim C3 counterexample: for `z = {1, 2, 3}` (zero imaginary parts) and
`u = {1, 4, 9}`, Build succeeds with coefficients `{1, -3/4, 11/16}`, but the
resulting continued fraction is the `[1/1]` rational interpolant, not the
polynomial `x²`: exactly, `Evaluate(5/2) = 43/7` and `Evaluate(4) = 19`, and
neither is within `1e-6` of the claimed `6.25` and `16` (squared distances
`(3/28)²` and `3²` exceed `(1e-6)² = 1e-12`). -/
theorem claim_C3_counterexample :
    pade_build [⟨1, 0⟩, ⟨2, 0⟩, ⟨3, 0⟩] [⟨1, 0⟩, ⟨4, 0⟩, ⟨9, 0⟩]
        = some ⟨[⟨1, 0⟩, ⟨2, 0⟩, ⟨3, 0⟩], [⟨1, 0⟩, ⟨-3/4, 0⟩, ⟨11/16, 0⟩]⟩ ∧
    pade_eval ⟨[⟨1, 0⟩, ⟨2, 0⟩, ⟨3, 0⟩], [⟨1, 0⟩, ⟨-3/4, 0⟩, ⟨11/16, 0⟩]⟩
        ⟨5/2, 0⟩ = ⟨43/7, 0⟩ ∧
    ¬ gmp_complex.norm (⟨43/7, 0⟩ - ⟨25/4, 0⟩) ≤ 1 / 10 ^ 12 ∧
    pade_eval ⟨[⟨1, 0⟩, ⟨2, 0⟩, ⟨3, 0⟩], [⟨1, 0⟩, ⟨-3/4, 0⟩, ⟨11/16, 0⟩]⟩
        ⟨4, 0⟩ = ⟨19, 0⟩ ∧
    ¬ gmp_complex.norm (⟨19, 0⟩ - ⟨16, 0⟩) ≤ 1 / 10 ^ 12 := by
  refine ⟨?_, ?_, ?_, ?_, ?_⟩
  · norm_num [pade_build, pade_coeffs, diagRec, nextRow, seqOpt, rowStep,
      gmp_complex.inverse, trunc_eps, Option.bind, pade_approximant.mk.injEq,
      gc_eq_iff, gc_add_re, gc_add_im, gc_sub_re, gc_sub_im, gc_mul_re,
      gc_mul_im, gc_invf_re, gc_invf_im, gc_inv_re, gc_inv_im, gc_one_re,
      gc_one_im, gc_zero_re, gc_zero_im, gc_norm_unfold, div_eq_mul_inv]
  · norm_num [pade_eval, evalLoop, gc_eq_iff, div_eq_mul_inv, gc_add_re,
      gc_add_im, gc_sub_re, gc_sub_im, gc_mul_re, gc_mul_im, gc_inv_re,
      gc_inv_im, gc_one_re, gc_one_im, gc_zero_re, gc_zero_im]
  · norm_num [gc_norm_unfold, gc_sub_re, gc_sub_im]
  · norm_num [pade_eval, evalLoop, gc_eq_iff, div_eq_mul_inv, gc_add_re,
      gc_add_im, gc_sub_re, gc_sub_im, gc_mul_re, gc_mul_im, gc_inv_re,
      gc_inv_im, gc_one_re, gc_one_im, gc_zero_re, gc_zero_im]
  · norm_num [gc_norm_unfold, gc_sub_re, gc_sub_im]

/-- Claim C3 (amended): for `z = {1, 2, 3}` and `u = {1, 4, 9}`, Build
succeeds with coefficients `{1, -3/4, 11/16}`; the approximant interpolates
the three nodes exactly (`Evaluate(1) = 1`, `Evaluate(2) = 4`,
`Evaluate(3) = 9`), but away from the nodes it is the `[1/1]` rational
interpolant, with `Evaluate(5/2) = 43/7 ≈ 6.1429` (not `6.25`) and
`Evaluate(4) = 19` (not `16`). -/
theorem claim_C3 :
    pade_build [⟨1, 0⟩, ⟨2, 0⟩, ⟨3, 0⟩] [⟨1, 0⟩, ⟨4, 0⟩, ⟨9, 0⟩]
        = some ⟨[⟨1, 0⟩, ⟨2, 0⟩, ⟨3, 0⟩], [⟨1, 0⟩, ⟨-3/4, 0⟩, ⟨11/16, 0⟩]⟩ ∧
    pade_eval ⟨[⟨1, 0⟩, ⟨2, 0⟩, ⟨3, 0⟩], [⟨1, 0⟩, ⟨-3/4, 0⟩, ⟨11/16, 0⟩]⟩
        ⟨1, 0⟩ = ⟨1, 0⟩ ∧
    pade_eval ⟨[⟨1, 0⟩, ⟨2, 0⟩, ⟨3, 0⟩], [⟨1, 0⟩, ⟨-3/4, 0⟩, ⟨11/16, 0⟩]⟩
        ⟨2, 0⟩ = ⟨4, 0⟩ ∧
    pade_eval ⟨[⟨1, 0⟩, ⟨2, 0⟩, ⟨3, 0⟩], [⟨1, 0⟩, ⟨-3/4, 0⟩, ⟨11/16, 0⟩]⟩
        ⟨3, 0⟩ = ⟨9, 0⟩ ∧
    pade_eval ⟨[⟨1, 0⟩, ⟨2, 0⟩, ⟨3, 0⟩], [⟨1, 0⟩, ⟨-3/4, 0⟩, ⟨11/16, 0⟩]⟩
        ⟨5/2, 0⟩ = ⟨43/7, 0⟩ ∧
    pade_eval ⟨[⟨1, 0⟩, ⟨2, 0⟩, ⟨3, 0⟩], [⟨1, 0⟩, ⟨-3/4, 0⟩, ⟨11/16, 0⟩]⟩
        ⟨4, 0⟩ = ⟨19, 0⟩ := by
  refine ⟨?_, ?_, ?_, ?_, ?_, ?_⟩ <;>
    norm_num [pade_build, pade_coeffs, diagRec, nextRow, seqOpt, rowStep,
      gmp_complex.inverse, trunc_eps, Option.bind, pade_approximant.mk.injEq,
      pade_eval, evalLoop, gc_eq_iff, gc_add_re, gc_add_im, gc_sub_re,
      gc_sub_im, gc_mul_re, gc_mul_im, gc_invf_re, gc_invf_im, gc_inv_re,
      gc_inv_im, gc_one_re, gc_one_im, gc_zero_re, gc_zero_im,
      gc_norm_unfold, div_eq_mul_inv]
